import Mathlib

/-!
Verification development for the Domino-Agent backend
(`src/backend/engine.py`, class `CausalDiscoveryEngine`).

The generative backend (two LLM "agents" reached over HTTP) is modelled as an
oracle: each `_get_impacts` invocation is numbered (0 for the root call made by
`analyze_event`, `i + 1` for the downstream call made while processing the
`i`-th direct impact), and the oracle answers

* `propose k descr` — the parsed result of the Detective chain of invocation
  `k` on event description `descr` (`none` models an exception or a parse
  failure, `some cs` the parsed candidate list, of arbitrary length);
* `validate k j` — the parsed Reviewer verdict for candidate `j` of invocation
  `k` (`none` models an exception or parse failure, `some b` a verdict with
  `valid = b`);
* `invokeNarrative event graphData` — the answer of the narrative chain (`none`
  models an exception).

Everything else — the validation loop with its early stop, the graph growth,
node/edge insertion semantics of `networkx.DiGraph` (at most one node per id,
at most one edge per ordered pair, attribute overwrite on re-insertion), and
the serializer — is translated directly from the source.
-/

namespace Domino

/-- Enumeration for the `sentiment` field of an `Impact` (Literal["positive", "negative"]). -/
inductive Sentiment where
  | positive
  | negative
deriving DecidableEq, Repr

/-- Model of the `Impact` pydantic class: one proposed causal impact. -/
structure Impact where
  target_entity : String
  sentiment : Sentiment
  explanation : String
deriving DecidableEq, Repr

/-- Body of the Reviewer loop in `_get_impacts` (engine.py lines 91-134).
Processes the candidates in proposal order; `validate j = none` models a
reviewer-call/parse exception (logged and skipped via `continue`),
`some b` a parsed verdict with `valid = b`.  On `valid` the candidate is
appended; after every parsed verdict the loop breaks once
`len(validated_impacts) >= count`.  Returns the validated list and the number
of Reviewer invocations made. -/
def reviewLoop (validate : Nat → Option Bool) (count : Nat) :
    List Impact → Nat → List Impact → List Impact × Nat
  | [], _, validated => (validated, 0)
  | impact :: rest, j, validated =>
    match validate j with
    | none =>
      let r := reviewLoop validate count rest (j + 1) validated
      (r.1, r.2 + 1)
    | some b =>
      let validated2 := if b then validated ++ [impact] else validated
      if count ≤ validated2.length then (validated2, 1)
      else
        let r := reviewLoop validate count rest (j + 1) validated2
        (r.1, r.2 + 1)

/-- Embedding of `_get_impacts` (engine.py lines 66-136): `proposed = none` models a
Detective exception/parse failure (the function then returns `[]`); otherwise
the Reviewer loop runs over the parsed candidates and the result is truncated
with `validated_impacts[:count]`. -/
def getImpacts (proposed : Option (List Impact)) (validate : Nat → Option Bool)
    (count : Nat) : List Impact :=
  match proposed with
  | none => []
  | some cs => ((reviewLoop validate count cs 0 []).1).take count

/-- Number of Reviewer-chain invocations performed by one `_get_impacts` call. -/
def getImpactsCalls (proposed : Option (List Impact)) (validate : Nat → Option Bool)
    (count : Nat) : Nat :=
  match proposed with
  | none => 0
  | some cs => (reviewLoop validate count cs 0 []).2

/-- Number of candidates among the first `i` whose verdict is `valid = true`:
the length `len(validated_impacts)` would have after `i` processed candidates. -/
def acceptedUpTo (validate : Nat → Option Bool) (i : Nat) : Nat :=
  ((List.range i).filter (fun j => decide (validate j = some true))).length

/-- Node attribute dict, as set by every `add_node` call in `analyze_event`. -/
structure NodeAttrs where
  label : String
  type : String
  layer : Nat
deriving DecidableEq, Repr

/-- Edge attribute dict, as set by every `add_edge` call in `analyze_event`. -/
structure EdgeAttrs where
  sentiment : Sentiment
  explanation : String
deriving DecidableEq, Repr

/-- Model of `networkx.DiGraph` as used by `analyze_event`: insertion-ordered node map
(unique ids) and insertion-ordered edge map (unique ordered pairs). -/
structure Graph where
  nodes : List (String × NodeAttrs)
  edges : List ((String × String) × EdgeAttrs)
deriving DecidableEq, Repr

/-- Generic association-list lookup by first component (first match wins). -/
def lookupFst {κ β : Type} [DecidableEq κ] (k : κ) : List (κ × β) → Option β
  | [] => none
  | q :: rest => if q.1 = k then some q.2 else lookupFst k rest

/-- Whether an association list has an entry with key `k`. -/
def hasKey {κ β : Type} [DecidableEq κ] (k : κ) (l : List (κ × β)) : Bool :=
  l.any (fun q => decide (q.1 = k))

/-- Insertion semantics of the keyed maps of `networkx`: re-adding an existing key updates its
value in place; a new key is appended. -/
def upsert {κ β : Type} [DecidableEq κ] (l : List (κ × β)) (q : κ × β) :
    List (κ × β) :=
  if hasKey q.1 l then l.map (fun r => if r.1 = q.1 then q else r)
  else l ++ [q]

/-- Left fold of `upsert` over a list of insertion requests. -/
def applyUpserts {κ β : Type} [DecidableEq κ] (acc : List (κ × β)) :
    List (κ × β) → List (κ × β)
  | [] => acc
  | q :: rest => applyUpserts (upsert acc q) rest

/-- First-insertion-wins accumulation: an insertion whose key is already
present is dropped entirely.  This is the node-deduplication
policy stated by the spec ("first-seen layer wins"), used to compare the built node list with the
trace of insertion requests. -/
def firstWins {κ β : Type} [DecidableEq κ] (acc : List (κ × β)) :
    List (κ × β) → List (κ × β)
  | [] => acc
  | q :: rest =>
    if hasKey q.1 acc then firstWins acc rest
    else firstWins (acc ++ [q]) rest

/-- Embedding of `graph.has_node(n)`. -/
def hasNode (g : Graph) (n : String) : Bool := hasKey n g.nodes

/-- Embedding of `DiGraph.add_node(n, **attrs)`: updates the attributes in place when the
node already exists, otherwise appends a new entry.  (Every call site in
`analyze_event` guards with `has_node`, so only the append branch is ever
reached there.) -/
def addNode (g : Graph) (n : String) (a : NodeAttrs) : Graph :=
  ⟨upsert g.nodes (n, a), g.edges⟩

/-- Embedding of `DiGraph.add_edge(u, v, **attrs)`: a `DiGraph` holds at most one edge per
ordered pair, so re-adding an existing pair overwrites its attributes.  Both
endpoints already exist at every call site in `analyze_event` (the root is
created first, and each entity node is inserted right before the edge that
reaches it), so the auto-creation of missing endpoint nodes by `add_edge` is
unreachable and not modelled. -/
def addEdge (g : Graph) (u v : String) (a : EdgeAttrs) : Graph :=
  ⟨g.nodes, upsert g.edges ((u, v), a)⟩

/-- The guarded entity-node insertion pattern of `analyze_event`
(`if not graph.has_node(n): graph.add_node(n, label=n, type="Entity", layer=l)`). -/
def insertEntityNode (g : Graph) (n : String) (layer : Nat) : Graph :=
  if hasNode g n then g else addNode g n ⟨n, "Entity", layer⟩

/-- The synthesized downstream event string (engine.py line 175). -/
def downstreamEvent (target : String) (e : String) : String :=
  "Change in " ++ target ++ " due to " ++ e

/-- Inner loop of `analyze_event` over `downstream_impacts` (lines 178-182). -/
def subLoop (nodeId : String) : List Impact → Graph → Graph
  | [], g => g
  | sub :: rest, g =>
    let g1 := insertEntityNode g sub.target_entity 2
    let g2 := addEdge g1 nodeId sub.target_entity ⟨sub.sentiment, sub.explanation⟩
    subLoop nodeId rest g2

/-- Outer loop of `analyze_event` over `direct_impacts` (lines 169-182);
`i` numbers the direct impacts so that the downstream `_get_impacts`
invocation for impact `i` is oracle invocation `i + 1`. -/
def directLoop (e : String) (propose : Nat → String → Option (List Impact))
    (validate : Nat → Nat → Option Bool) : List Impact → Nat → Graph → Graph
  | [], _, g => g
  | impact :: rest, i, g =>
    let g1 := insertEntityNode g impact.target_entity 1
    let g2 := addEdge g1 e impact.target_entity ⟨impact.sentiment, impact.explanation⟩
    let downstream := getImpacts (propose (i + 1) (downstreamEvent impact.target_entity e))
        (validate (i + 1)) 2
    directLoop e propose validate rest (i + 1) (subLoop impact.target_entity downstream g2)

/-- Embedding of `direct_impacts = self._get_impacts(event_text, count=3)` (line 167). -/
def directImpacts (e : String) (propose : Nat → String → Option (List Impact))
    (validate : Nat → Nat → Option Bool) : List Impact :=
  getImpacts (propose 0 e) (validate 0) 3

/-- Graph-building part of `analyze_event` (engine.py lines 163-182). -/
def analyzeGraph (e : String) (propose : Nat → String → Option (List Impact))
    (validate : Nat → Nat → Option Bool) : Graph :=
  directLoop e propose validate (directImpacts e propose validate) 0
    (addNode ⟨[], []⟩ e ⟨e, "Event", 0⟩)

/-- One record of the serialized `nodes` list. -/
structure NodeRecord where
  id : String
  label : String
  type : String
  layer : Nat
deriving DecidableEq, Repr

/-- One record of the serialized `edges` list. -/
structure EdgeRecord where
  source : String
  target : String
  sentiment : Sentiment
  explanation : String
deriving DecidableEq, Repr

/-- The `{"nodes": ..., "edges": ...}` payload built by `_graph_to_json`. -/
structure SerializedGraph where
  nodes : List NodeRecord
  edges : List EdgeRecord
deriving DecidableEq, Repr

/-- Embedding of `_graph_to_json` (engine.py lines 194-213) in state-passing form: the
method only reads the graph, so the graph state it hands back is the input
unchanged.  The `attrs.get` defaults of the source ("Entity", layer 0,
"neutral", "") are unreachable here because every insertion in `analyze_event`
supplies all attributes, which the total attribute records of the model reflect. -/
def graphToJsonSt (g : Graph) : SerializedGraph × Graph :=
  (⟨g.nodes.map (fun q => ⟨q.1, q.2.label, q.2.type, q.2.layer⟩),
    g.edges.map (fun q => ⟨q.1.1, q.1.2, q.2.sentiment, q.2.explanation⟩)⟩, g)

/-- Value-level `_graph_to_json`. -/
def graphToJson (g : Graph) : SerializedGraph := (graphToJsonSt g).1

/-- The fixed fallback narrative (engine.py line 156). -/
def fallbackNarrative : String :=
  "Analysis complete. Unable to generate narrative summary."

/-- Embedding of `_generate_narrative` (engine.py lines 138-156): serializes the graph into
the prompt, invokes the Detective chain once (`invokeNarrative`, with `none`
modelling a raised exception), and falls back to the fixed string on failure. -/
def generateNarrative (e : String) (g : Graph)
    (invokeNarrative : String → SerializedGraph → Option String) : String :=
  let graphData := graphToJson g
  match invokeNarrative e graphData with
  | some response => response
  | none => fallbackNarrative

/-- Full result of `analyze_event` (engine.py lines 158-192): serialized graph
plus narrative. -/
structure AnalysisResult where
  nodes : List NodeRecord
  edges : List EdgeRecord
  narrative : String
deriving DecidableEq, Repr

/-- Embedding of `analyze_event` (engine.py lines 158-192). -/
def analyze_event (e : String) (propose : Nat → String → Option (List Impact))
    (validate : Nat → Nat → Option Bool)
    (invokeNarrative : String → SerializedGraph → Option String) : AnalysisResult :=
  let graph := analyzeGraph e propose validate
  let narrative := generateNarrative e graph invokeNarrative
  let result := graphToJson graph
  ⟨result.nodes, result.edges, narrative⟩

/-- Stored layer of node `n` in graph `g`. -/
def layerOf (g : Graph) (n : String) : Option Nat :=
  (lookupFst n g.nodes).map NodeAttrs.layer

/-- The layer relation the spec asserts of every edge:
`layer(target) = layer(source) + 1` on the stored endpoint attributes. -/
def layerStepOk (g : Graph) (q : (String × String) × EdgeAttrs) : Prop :=
  layerOf g q.1.2 = (layerOf g q.1.1).map (· + 1)

instance layerStepOkDecidable (g : Graph) (q : (String × String) × EdgeAttrs) :
    Decidable (layerStepOk g q) := by
  unfold layerStepOk
  infer_instance

/-- Node-insertion requests issued by the loop body of `analyze_event` for one
`downstream_impacts` list. -/
def subNodeRequests (subs : List Impact) : List (String × NodeAttrs) :=
  subs.map (fun s => (s.target_entity, ⟨s.target_entity, "Entity", 2⟩))

/-- Node-insertion requests issued by the outer loop of `analyze_event`,
in program order. -/
def nodeRequestsLoop (e : String) (propose : Nat → String → Option (List Impact))
    (validate : Nat → Nat → Option Bool) : List Impact → Nat → List (String × NodeAttrs)
  | [], _ => []
  | impact :: rest, i =>
    (impact.target_entity, ⟨impact.target_entity, "Entity", 1⟩) ::
      (subNodeRequests (getImpacts (propose (i + 1) (downstreamEvent impact.target_entity e))
          (validate (i + 1)) 2)
        ++ nodeRequestsLoop e propose validate rest (i + 1))

/-- All node-insertion requests of one `analyze_event` run, in program order
(root first). -/
def nodeRequests (e : String) (propose : Nat → String → Option (List Impact))
    (validate : Nat → Nat → Option Bool) : List (String × NodeAttrs) :=
  (e, ⟨e, "Event", 0⟩) :: nodeRequestsLoop e propose validate (directImpacts e propose validate) 0

/-- Edge-insertion requests issued for one `downstream_impacts` list. -/
def subEdgeRequests (nodeId : String) (subs : List Impact) :
    List ((String × String) × EdgeAttrs) :=
  subs.map (fun s => ((nodeId, s.target_entity), ⟨s.sentiment, s.explanation⟩))

/-- Edge-insertion requests issued by the outer loop of `analyze_event`,
in program order. -/
def edgeRequestsLoop (e : String) (propose : Nat → String → Option (List Impact))
    (validate : Nat → Nat → Option Bool) : List Impact → Nat → List ((String × String) × EdgeAttrs)
  | [], _ => []
  | impact :: rest, i =>
    ((e, impact.target_entity), ⟨impact.sentiment, impact.explanation⟩) ::
      (subEdgeRequests impact.target_entity
          (getImpacts (propose (i + 1) (downstreamEvent impact.target_entity e))
            (validate (i + 1)) 2)
        ++ edgeRequestsLoop e propose validate rest (i + 1))

/-- All edge-insertion requests of one `analyze_event` run, in program order. -/
def edgeRequests (e : String) (propose : Nat → String → Option (List Impact))
    (validate : Nat → Nat → Option Bool) : List ((String × String) × EdgeAttrs) :=
  edgeRequestsLoop e propose validate (directImpacts e propose validate) 0

/-- Target entities of the direct impacts of a run. -/
def directTargets (e : String) (propose : Nat → String → Option (List Impact))
    (validate : Nat → Nat → Option Bool) : List String :=
  (directImpacts e propose validate).map Impact.target_entity

/-- Target entities of all downstream impacts actually used by the outer loop. -/
def allSubTargetsLoop (e : String) (propose : Nat → String → Option (List Impact))
    (validate : Nat → Nat → Option Bool) : List Impact → Nat → List String
  | [], _ => []
  | impact :: rest, i =>
    (getImpacts (propose (i + 1) (downstreamEvent impact.target_entity e))
        (validate (i + 1)) 2).map Impact.target_entity
      ++ allSubTargetsLoop e propose validate rest (i + 1)

/-- Target entities of all downstream impacts of a run. -/
def allSubTargets (e : String) (propose : Nat → String → Option (List Impact))
    (validate : Nat → Nat → Option Bool) : List String :=
  allSubTargetsLoop e propose validate (directImpacts e propose validate) 0

section AssocLemmas

variable {κ β : Type} [DecidableEq κ]

theorem lookupFst_append (k : κ) (xs ys : List (κ × β)) :
    lookupFst k (xs ++ ys) =
      match lookupFst k xs with
      | some b => some b
      | none => lookupFst k ys := by
  induction xs with
  | nil => simp [lookupFst]
  | cons q rest ih =>
    by_cases h : q.1 = k <;> simp [lookupFst, h, ih]

theorem hasKey_iff (k : κ) (l : List (κ × β)) :
    hasKey k l = true ↔ k ∈ l.map Prod.fst := by
  simp [hasKey, List.any_eq_true, List.mem_map]

theorem lookupFst_eq_none (k : κ) (l : List (κ × β)) :
    lookupFst k l = none ↔ k ∉ l.map Prod.fst := by
  induction l with
  | nil => simp [lookupFst]
  | cons q rest ih =>
    rw [List.map_cons, List.mem_cons]
    by_cases h : q.1 = k
    · simp [lookupFst, h]
    · rw [lookupFst, if_neg h, ih]
      constructor
      · intro hn hm
        rcases hm with hm | hm
        · exact h hm.symm
        · exact hn hm
      · intro hn hm
        exact hn (Or.inr hm)

theorem lookupFst_isSome_of_hasKey {k : κ} {l : List (κ × β)}
    (h : hasKey k l = true) : (lookupFst k l).isSome = true := by
  rw [hasKey_iff] at h
  cases hl : lookupFst k l with
  | some b => rfl
  | none => exact absurd h ((lookupFst_eq_none k l).mp hl)

theorem firstWins_append (xs ys acc : List (κ × β)) :
    firstWins acc (xs ++ ys) = firstWins (firstWins acc xs) ys := by
  induction xs generalizing acc with
  | nil => simp [firstWins]
  | cons q rest ih =>
    by_cases h : hasKey q.1 acc <;> simp [firstWins, h, ih]

theorem lookupFst_firstWins (k : κ) (reqs acc : List (κ × β)) :
    lookupFst k (firstWins acc reqs) = lookupFst k (acc ++ reqs) := by
  induction reqs generalizing acc with
  | nil => simp [firstWins]
  | cons q rest ih =>
    by_cases h : hasKey q.1 acc
    · rw [firstWins, if_pos h, ih]
      rw [lookupFst_append, lookupFst_append]
      cases ha : lookupFst k acc with
      | some b => rfl
      | none =>
        have hk : ¬ q.1 = k := by
          intro hkq
          have hs := lookupFst_isSome_of_hasKey h
          rw [hkq, ha] at hs
          simp at hs
        show lookupFst k rest = lookupFst k (q :: rest)
        rw [lookupFst, if_neg hk]
    · rw [firstWins, if_neg h, ih]
      rw [show acc ++ [q] ++ rest = acc ++ q :: rest by simp]

theorem firstWins_eq_append (reqs acc : List (κ × β)) :
    ∃ t, firstWins acc reqs = acc ++ t ∧ ∀ x ∈ t, x ∈ reqs := by
  induction reqs generalizing acc with
  | nil => exact ⟨[], by simp [firstWins]⟩
  | cons q rest ih =>
    by_cases h : hasKey q.1 acc
    · obtain ⟨t, ht, hm⟩ := ih acc
      exact ⟨t, by rw [firstWins, if_pos h, ht], fun x hx => List.mem_cons_of_mem _ (hm x hx)⟩
    · obtain ⟨t, ht, hm⟩ := ih (acc ++ [q])
      refine ⟨q :: t, ?_, ?_⟩
      · rw [firstWins, if_neg h, ht]
        simp
      · intro x hx
        rcases List.mem_cons.mp hx with rfl | hx
        · exact List.mem_cons_self _ _
        · exact List.mem_cons_of_mem _ (hm x hx)

theorem firstWins_keys_nodup (reqs : List (κ × β)) :
    ∀ acc : List (κ × β), (acc.map Prod.fst).Nodup →
      ((firstWins acc reqs).map Prod.fst).Nodup := by
  induction reqs with
  | nil => intro acc h; simpa [firstWins] using h
  | cons q rest ih =>
    intro acc h
    by_cases hk : hasKey q.1 acc
    · rw [firstWins, if_pos hk]
      exact ih acc h
    · rw [firstWins, if_neg hk]
      refine ih (acc ++ [q]) ?_
      rw [List.map_append, List.nodup_append]
      refine ⟨h, by simp, ?_⟩
      intro a ha hb
      simp at hb
      subst hb
      exact hk ((hasKey_iff q.1 acc).mpr ha)

theorem lookupFst_replace_ne {k : κ} (q : κ × β) (l : List (κ × β))
    (hk : k ≠ q.1) :
    lookupFst k (l.map (fun r => if r.1 = q.1 then q else r)) = lookupFst k l := by
  induction l with
  | nil => rfl
  | cons r rest ih =>
    by_cases hr : r.1 = q.1
    · have hqk : ¬ q.1 = k := fun hq => hk hq.symm
      have hrk : ¬ r.1 = k := by rw [hr]; exact hqk
      simp [lookupFst, hr, hqk, hrk, ih]
    · by_cases hrrk : r.1 = k <;> simp [lookupFst, hr, hrrk, hk, ih]

theorem lookupFst_replace_eq (q : κ × β) (l : List (κ × β))
    (h : hasKey q.1 l = true) :
    lookupFst q.1 (l.map (fun r => if r.1 = q.1 then q else r)) = some q.2 := by
  induction l with
  | nil => simp [hasKey] at h
  | cons r rest ih =>
    by_cases hr : r.1 = q.1
    · simp [lookupFst, hr]
    · have htail : hasKey q.1 rest = true := by
        rw [hasKey_iff] at h ⊢
        rw [List.map_cons, List.mem_cons] at h
        rcases h with hc | hc
        · exact absurd hc.symm hr
        · exact hc
      simp [lookupFst, hr, ih htail]

theorem lookupFst_upsert (k : κ) (l : List (κ × β)) (q : κ × β) :
    lookupFst k (upsert l q) = if k = q.1 then some q.2 else lookupFst k l := by
  unfold upsert
  by_cases h : hasKey q.1 l
  · rw [if_pos h]
    by_cases hk : k = q.1
    · subst hk
      rw [if_pos rfl, lookupFst_replace_eq q l h]
    · rw [if_neg hk, lookupFst_replace_ne q l hk]
  · rw [if_neg h, lookupFst_append]
    by_cases hk : k = q.1
    · have hnone : lookupFst k l = none := by
        refine (lookupFst_eq_none k l).mpr (fun hm => h ?_)
        rw [hasKey_iff]
        rw [hk] at hm
        exact hm
      rw [hk] at hnone ⊢
      rw [hnone]
      simp [lookupFst]
    · cases hl : lookupFst k l with
      | some b => simp [hk, hl]
      | none =>
        simp [hk, hl, lookupFst]
        exact fun hq => hk hq.symm

theorem upsert_keys (l : List (κ × β)) (q : κ × β) :
    (upsert l q).map Prod.fst =
      if hasKey q.1 l then l.map Prod.fst else l.map Prod.fst ++ [q.1] := by
  unfold upsert
  by_cases h : hasKey q.1 l
  · rw [if_pos h, if_pos h, List.map_map]
    refine List.map_congr_left ?_
    intro r _
    by_cases hr : r.1 = q.1 <;> simp [hr]
  · rw [if_neg h, if_neg h, List.map_append]
    rfl

theorem applyUpserts_append (xs ys acc : List (κ × β)) :
    applyUpserts acc (xs ++ ys) = applyUpserts (applyUpserts acc xs) ys := by
  induction xs generalizing acc with
  | nil => rfl
  | cons q rest ih => simp [applyUpserts, ih]

theorem lookupFst_applyUpserts (k : κ) (reqs acc : List (κ × β)) :
    lookupFst k (applyUpserts acc reqs) =
      match lookupFst k reqs.reverse with
      | some b => some b
      | none => lookupFst k acc := by
  induction reqs generalizing acc with
  | nil => simp [applyUpserts, lookupFst]
  | cons q rest ih =>
    rw [applyUpserts, ih, List.reverse_cons, lookupFst_append]
    cases hrv : lookupFst k rest.reverse with
    | some b => rfl
    | none =>
      rw [lookupFst_upsert]
      by_cases hk : k = q.1
      · simp [lookupFst, hk]
      · have h1 : lookupFst k [q] = none := by
          rw [lookupFst, if_neg (fun hq : q.1 = k => hk hq.symm)]
          rfl
        rw [if_neg hk, h1]

theorem applyUpserts_keys_nodup (reqs : List (κ × β)) :
    ∀ acc : List (κ × β), (acc.map Prod.fst).Nodup →
      ((applyUpserts acc reqs).map Prod.fst).Nodup := by
  induction reqs with
  | nil => intro acc h; simpa [applyUpserts] using h
  | cons q rest ih =>
    intro acc h
    rw [applyUpserts]
    refine ih (upsert acc q) ?_
    rw [upsert_keys]
    by_cases hk : hasKey q.1 acc
    · rwa [if_pos hk]
    · rw [if_neg hk, List.nodup_append]
      refine ⟨h, by simp, ?_⟩
      intro a ha hb
      simp at hb
      subst hb
      exact hk ((hasKey_iff q.1 acc).mpr ha)

theorem applyUpserts_keys_mem (reqs : List (κ × β)) :
    ∀ acc : List (κ × β), ∀ x ∈ applyUpserts acc reqs,
      x.1 ∈ acc.map Prod.fst ∨ x.1 ∈ reqs.map Prod.fst := by
  induction reqs with
  | nil =>
    intro acc x hx
    exact Or.inl (List.mem_map_of_mem Prod.fst hx)
  | cons q rest ih =>
    intro acc x hx
    rw [applyUpserts] at hx
    rcases ih (upsert acc q) x hx with h | h
    · rw [upsert_keys] at h
      by_cases hk : hasKey q.1 acc
      · rw [if_pos hk] at h
        exact Or.inl h
      · rw [if_neg hk] at h
        rcases List.mem_append.mp h with h | h
        · exact Or.inl h
        · simp at h
          exact Or.inr (by simp [h])
    · exact Or.inr (by simp [h])

end AssocLemmas

section GraphBridge

theorem addEdge_nodes (g : Graph) (u v : String) (a : EdgeAttrs) :
    (addEdge g u v a).nodes = g.nodes := rfl

theorem insertEntityNode_edges (g : Graph) (n : String) (layer : Nat) :
    (insertEntityNode g n layer).edges = g.edges := by
  unfold insertEntityNode addNode
  split <;> rfl

theorem insertEntityNode_nodes (g : Graph) (n : String) (layer : Nat) :
    (insertEntityNode g n layer).nodes =
      if hasKey n g.nodes then g.nodes else g.nodes ++ [(n, ⟨n, "Entity", layer⟩)] := by
  unfold insertEntityNode addNode hasNode upsert
  by_cases h : hasKey n g.nodes <;> simp [h]

theorem subLoop_nodes (subs : List Impact) (nodeId : String) (g : Graph) :
    (subLoop nodeId subs g).nodes = firstWins g.nodes (subNodeRequests subs) := by
  induction subs generalizing g with
  | nil => rfl
  | cons s rest ih =>
    rw [subLoop, ih]
    rw [show subNodeRequests (s :: rest)
      = (s.target_entity, (⟨s.target_entity, "Entity", 2⟩ : NodeAttrs)) :: subNodeRequests rest
      from rfl]
    rw [firstWins, addEdge_nodes, insertEntityNode_nodes]
    by_cases h : hasKey s.target_entity g.nodes <;> simp [h]

theorem subLoop_edges (subs : List Impact) (nodeId : String) (g : Graph) :
    (subLoop nodeId subs g).edges = applyUpserts g.edges (subEdgeRequests nodeId subs) := by
  induction subs generalizing g with
  | nil => rfl
  | cons s rest ih =>
    rw [subLoop, ih]
    rw [show subEdgeRequests nodeId (s :: rest)
      = ((nodeId, s.target_entity), (⟨s.sentiment, s.explanation⟩ : EdgeAttrs)) ::
          subEdgeRequests nodeId rest from rfl]
    rw [applyUpserts]
    have h2 : (addEdge (insertEntityNode g s.target_entity 2) nodeId s.target_entity
        ⟨s.sentiment, s.explanation⟩).edges
      = upsert g.edges ((nodeId, s.target_entity), ⟨s.sentiment, s.explanation⟩) := by
      show upsert (insertEntityNode g s.target_entity 2).edges _ = _
      rw [insertEntityNode_edges]
    rw [h2]

theorem directLoop_nodes (e : String) (propose : Nat → String → Option (List Impact))
    (validate : Nat → Nat → Option Bool) (cs : List Impact) :
    ∀ (i : Nat) (g : Graph),
      (directLoop e propose validate cs i g).nodes =
        firstWins g.nodes (nodeRequestsLoop e propose validate cs i) := by
  induction cs with
  | nil => intro i g; rfl
  | cons impact rest ih =>
    intro i g
    rw [directLoop, ih]
    rw [show nodeRequestsLoop e propose validate (impact :: rest) i
      = ((impact.target_entity, (⟨impact.target_entity, "Entity", 1⟩ : NodeAttrs)) ::
          subNodeRequests (getImpacts (propose (i + 1) (downstreamEvent impact.target_entity e))
            (validate (i + 1)) 2))
          ++ nodeRequestsLoop e propose validate rest (i + 1) from by
        rw [nodeRequestsLoop, List.cons_append]]
    rw [firstWins_append]
    rw [subLoop_nodes, addEdge_nodes, insertEntityNode_nodes]
    rw [show firstWins g.nodes ((impact.target_entity,
        (⟨impact.target_entity, "Entity", 1⟩ : NodeAttrs)) ::
        subNodeRequests (getImpacts (propose (i + 1) (downstreamEvent impact.target_entity e))
          (validate (i + 1)) 2))
      = firstWins (if hasKey impact.target_entity g.nodes then g.nodes
          else g.nodes ++ [(impact.target_entity, ⟨impact.target_entity, "Entity", 1⟩)])
          (subNodeRequests (getImpacts (propose (i + 1) (downstreamEvent impact.target_entity e))
            (validate (i + 1)) 2)) from by
        rw [firstWins]
        by_cases h : hasKey impact.target_entity g.nodes <;> simp [h]]

theorem directLoop_edges (e : String) (propose : Nat → String → Option (List Impact))
    (validate : Nat → Nat → Option Bool) (cs : List Impact) :
    ∀ (i : Nat) (g : Graph),
      (directLoop e propose validate cs i g).edges =
        applyUpserts g.edges (edgeRequestsLoop e propose validate cs i) := by
  induction cs with
  | nil => intro i g; rfl
  | cons impact rest ih =>
    intro i g
    rw [directLoop, ih]
    rw [show edgeRequestsLoop e propose validate (impact :: rest) i
      = (((e, impact.target_entity), (⟨impact.sentiment, impact.explanation⟩ : EdgeAttrs)) ::
          subEdgeRequests impact.target_entity
            (getImpacts (propose (i + 1) (downstreamEvent impact.target_entity e))
              (validate (i + 1)) 2))
          ++ edgeRequestsLoop e propose validate rest (i + 1) from by
        rw [edgeRequestsLoop, List.cons_append]]
    rw [applyUpserts_append]
    rw [subLoop_edges]
    rw [applyUpserts]
    have h2 : (addEdge (insertEntityNode g impact.target_entity 1) e impact.target_entity
        ⟨impact.sentiment, impact.explanation⟩).edges
      = upsert g.edges ((e, impact.target_entity), ⟨impact.sentiment, impact.explanation⟩) := by
      show upsert (insertEntityNode g impact.target_entity 1).edges _ = _
      rw [insertEntityNode_edges]
    rw [h2]

theorem analyzeGraph_nodes (e : String) (propose : Nat → String → Option (List Impact))
    (validate : Nat → Nat → Option Bool) :
    (analyzeGraph e propose validate).nodes = firstWins [] (nodeRequests e propose validate) := by
  rw [analyzeGraph, directLoop_nodes, nodeRequests]
  rw [show (addNode ⟨[], []⟩ e ⟨e, "Event", 0⟩).nodes = [(e, ⟨e, "Event", 0⟩)] from rfl]
  rw [show firstWins ([] : List (String × NodeAttrs)) ((e, ⟨e, "Event", 0⟩) ::
      nodeRequestsLoop e propose validate (directImpacts e propose validate) 0)
    = firstWins [(e, ⟨e, "Event", 0⟩)]
        (nodeRequestsLoop e propose validate (directImpacts e propose validate) 0) from by
    rw [firstWins]
    rfl]

theorem analyzeGraph_edges (e : String) (propose : Nat → String → Option (List Impact))
    (validate : Nat → Nat → Option Bool) :
    (analyzeGraph e propose validate).edges = applyUpserts [] (edgeRequests e propose validate) := by
  rw [analyzeGraph, directLoop_edges, edgeRequests]
  rw [show (addNode ⟨[], []⟩ e ⟨e, "Event", 0⟩).edges
    = ([] : List ((String × String) × EdgeAttrs)) from rfl]

end GraphBridge

section DiscoveryLemmas

theorem acceptedUpTo_succ (v : Nat → Option Bool) (i : Nat) :
    acceptedUpTo v (i + 1) =
      acceptedUpTo v i + if v i = some true then 1 else 0 := by
  unfold acceptedUpTo
  rw [List.range_succ, List.filter_append, List.length_append]
  by_cases h : v i = some true <;> simp [h]

theorem reviewLoop_calls_le (v : Nat → Option Bool) (count : Nat) (cs : List Impact) :
    ∀ (j : Nat) (acc : List Impact), (reviewLoop v count cs j acc).2 ≤ cs.length := by
  induction cs with
  | nil => intro j acc; simp [reviewLoop]
  | cons c rest ih =>
    intro j acc
    rw [reviewLoop]
    cases hv : v j with
    | none => simp [Nat.succ_le_succ (ih (j + 1) acc)]
    | some b =>
      by_cases hstop : count ≤ (if b then acc ++ [c] else acc).length
      · simp [hstop]
      · simpa [hstop] using Nat.succ_le_succ (ih (j + 1) (if b then acc ++ [c] else acc))

theorem reviewLoop_sublist (v : Nat → Option Bool) (count : Nat) (cs : List Impact) :
    ∀ (j : Nat) (acc : List Impact),
      ∃ t, (reviewLoop v count cs j acc).1 = acc ++ t ∧ t.Sublist cs := by
  induction cs with
  | nil =>
    intro j acc
    exact ⟨[], by simp [reviewLoop], List.nil_sublist []⟩
  | cons c rest ih =>
    intro j acc
    rw [reviewLoop]
    cases hv : v j with
    | none =>
      obtain ⟨t, ht, hs⟩ := ih (j + 1) acc
      exact ⟨t, by simpa using ht, hs.cons c⟩
    | some b =>
      cases b with
      | true =>
        by_cases hstop : count ≤ acc.length + 1
        · refine ⟨[c], by simp [hstop], ?_⟩
          exact (List.nil_sublist rest).cons₂ c
        · obtain ⟨t, ht, hs⟩ := ih (j + 1) (acc ++ [c])
          refine ⟨c :: t, ?_, hs.cons₂ c⟩
          simp [hstop, ht]
      | false =>
        by_cases hstop : count ≤ acc.length
        · exact ⟨[], by simp [hstop], List.nil_sublist _⟩
        · obtain ⟨t, ht, hs⟩ := ih (j + 1) acc
          exact ⟨t, by simp [hstop, ht], hs.cons c⟩

theorem getImpacts_length_le (proposed : Option (List Impact)) (v : Nat → Option Bool)
    (count : Nat) : (getImpacts proposed v count).length ≤ count := by
  cases proposed with
  | none => simp [getImpacts]
  | some cs =>
    rw [getImpacts]
    exact List.length_take_le count (reviewLoop v count cs 0 []).1

end DiscoveryLemmas

section ClaimC10

/-- C10: the sequence of accepted impacts returned by `_get_impacts` is a
subsequence of the proposed candidate sequence — every returned impact is one
of the candidates of the Detective with its `target_entity`, `sentiment` and
`explanation` unmodified, and the returned impacts keep the proposal order;
when the Detective call fails the result is empty. -/
theorem discovery_returns_subsequence :
    ∀ (cs : List Impact) (v : Nat → Option Bool) (count : Nat),
      (getImpacts (some cs) v count).Sublist cs ∧ getImpacts none v count = [] := by
  intro cs v count
  refine ⟨?_, rfl⟩
  obtain ⟨t, ht, hs⟩ := reviewLoop_sublist v count cs 0 []
  rw [show getImpacts (some cs) v count = ((reviewLoop v count cs 0 []).1).take count from rfl]
  rw [ht]
  simpa using (List.take_sublist count t).trans hs

end ClaimC10

section ClaimC3

/-- C3 counterexample: the Reviewer is not invoked at most 5 times per
`_get_impacts` call — when the parsed Detective response contains 6
candidates and every verdict is a rejection, the Reviewer runs 6 times. -/
theorem validator_pool_bound_cex :
    getImpactsCalls (some (List.replicate 6 ⟨"X", Sentiment.positive, "e"⟩))
        (fun _ => some false) 3 = 6
    ∧ ¬ (getImpactsCalls (some (List.replicate 6 ⟨"X", Sentiment.positive, "e"⟩))
        (fun _ => some false) 3 ≤ 5) := by
  decide

/-- C3 as amended: the candidate pool iterated by `_get_impacts` is whatever
the parsed Detective response contains (the prompt asks for exactly 5 but
nothing truncates or enforces that), so the Reviewer is invoked at most once
per parsed candidate — at most `len(candidates)` times — and a failed
Detective call gives zero Reviewer invocations. -/
theorem validator_calls_per_candidate :
    ∀ (cs : List Impact) (v : Nat → Option Bool) (count : Nat),
      getImpactsCalls (some cs) v count ≤ cs.length
      ∧ getImpactsCalls none v count = 0 := by
  intro cs v count
  exact ⟨reviewLoop_calls_le v count cs 0 [], rfl⟩

end ClaimC3

section ClaimC8

/-- C8: when the narrative chain invocation raises, `_generate_narrative`
returns exactly the fixed fallback string, and `analyze_event` still returns
the serialized graph unchanged — a narrative failure never aborts an
otherwise-successful graph build. -/
theorem narrative_failure_fallback (e : String)
    (propose : Nat → String → Option (List Impact)) (validate : Nat → Nat → Option Bool)
    (invokeNarrative : String → SerializedGraph → Option String)
    (h : invokeNarrative e (graphToJson (analyzeGraph e propose validate)) = none) :
    (analyze_event e propose validate invokeNarrative).narrative
        = "Analysis complete. Unable to generate narrative summary."
    ∧ (analyze_event e propose validate invokeNarrative).nodes
        = (graphToJson (analyzeGraph e propose validate)).nodes
    ∧ (analyze_event e propose validate invokeNarrative).edges
        = (graphToJson (analyzeGraph e propose validate)).edges := by
  refine ⟨?_, rfl, rfl⟩
  show (match invokeNarrative e (graphToJson (analyzeGraph e propose validate)) with
    | some response => response
    | none => fallbackNarrative) = _
  rw [h]
  rfl

/-- Witness for C8 at a concrete run whose narrative invocation fails. -/
theorem narrative_failure_fallback_w :
    (fun (_ : String) (_ : SerializedGraph) => (none : Option String)) "E"
        (graphToJson (analyzeGraph "E" (fun _ _ => some []) (fun _ _ => some true))) = none
    ∧ ((analyze_event "E" (fun _ _ => some []) (fun _ _ => some true)
          (fun _ _ => none)).narrative
        = "Analysis complete. Unable to generate narrative summary."
      ∧ (analyze_event "E" (fun _ _ => some []) (fun _ _ => some true)
          (fun _ _ => none)).nodes
        = (graphToJson (analyzeGraph "E" (fun _ _ => some []) (fun _ _ => some true))).nodes
      ∧ (analyze_event "E" (fun _ _ => some []) (fun _ _ => some true)
          (fun _ _ => none)).edges
        = (graphToJson (analyzeGraph "E" (fun _ _ => some []) (fun _ _ => some true))).edges) :=
  ⟨rfl, narrative_failure_fallback "E" (fun _ _ => some []) (fun _ _ => some true)
    (fun _ _ => none) rfl⟩

end ClaimC8

section ClaimC9

/-- C9: the serializer `_graph_to_json` only reads the graph — in
state-passing form it returns the graph unchanged, and applying it twice to
the same graph yields identical output. -/
theorem serializer_pure_idempotent :
    ∀ g : Graph,
      (graphToJsonSt g).2 = g
      ∧ (graphToJsonSt ((graphToJsonSt g).2)).1 = (graphToJsonSt g).1 :=
  fun _ => ⟨rfl, rfl⟩

end ClaimC9

section RequestShapeLemmas

theorem nodeRequestsLoop_layer (e : String) (propose : Nat → String → Option (List Impact))
    (validate : Nat → Nat → Option Bool) (cs : List Impact) :
    ∀ (i : Nat), ∀ x ∈ nodeRequestsLoop e propose validate cs i,
      x.2.layer = 1 ∨ x.2.layer = 2 := by
  induction cs with
  | nil => intro i x hx; cases hx
  | cons impact rest ih =>
    intro i x hx
    rw [nodeRequestsLoop] at hx
    rcases List.mem_cons.mp hx with rfl | hx
    · exact Or.inl rfl
    rcases List.mem_append.mp hx with hx | hx
    · rw [subNodeRequests] at hx
      obtain ⟨s, _, rfl⟩ := List.mem_map.mp hx
      exact Or.inr rfl
    · exact ih (i + 1) x hx

theorem nodeRequestsLoop_layer1_key (e : String) (propose : Nat → String → Option (List Impact))
    (validate : Nat → Nat → Option Bool) (cs : List Impact) :
    ∀ (i : Nat), ∀ x ∈ nodeRequestsLoop e propose validate cs i, x.2.layer = 1 →
      x.1 ∈ cs.map Impact.target_entity := by
  induction cs with
  | nil => intro i x hx; cases hx
  | cons impact rest ih =>
    intro i x hx hl
    rw [nodeRequestsLoop] at hx
    rw [List.map_cons]
    rcases List.mem_cons.mp hx with rfl | hx
    · exact List.mem_cons_self _ _
    rcases List.mem_append.mp hx with hx | hx
    · rw [subNodeRequests] at hx
      obtain ⟨s, _, rfl⟩ := List.mem_map.mp hx
      simp at hl
    · exact List.mem_cons_of_mem _ (ih (i + 1) x hx hl)

theorem edgeRequestsLoop_key (e : String) (propose : Nat → String → Option (List Impact))
    (validate : Nat → Nat → Option Bool) (cs : List Impact) :
    ∀ (i : Nat), ∀ k ∈ (edgeRequestsLoop e propose validate cs i).map Prod.fst,
      (k.1 = e ∧ k.2 ∈ cs.map Impact.target_entity)
      ∨ (k.1 ∈ cs.map Impact.target_entity ∧ k.2 ∈ allSubTargetsLoop e propose validate cs i) := by
  induction cs with
  | nil => intro i k hk; cases hk
  | cons impact rest ih =>
    intro i k hk
    rw [edgeRequestsLoop, List.map_cons] at hk
    rw [List.map_cons]
    rw [allSubTargetsLoop]
    rcases List.mem_cons.mp hk with rfl | hk
    · exact Or.inl ⟨rfl, List.mem_cons_self _ _⟩
    rw [List.map_append] at hk
    rcases List.mem_append.mp hk with hk | hk
    · rw [subEdgeRequests, List.map_map] at hk
      obtain ⟨s, hs, rfl⟩ := List.mem_map.mp hk
      refine Or.inr ⟨List.mem_cons_self _ _, List.mem_append_left _ ?_⟩
      exact List.mem_map_of_mem Impact.target_entity hs
    · rcases ih (i + 1) k hk with ⟨h1, h2⟩ | ⟨h1, h2⟩
      · exact Or.inl ⟨h1, List.mem_cons_of_mem _ h2⟩
      · exact Or.inr ⟨List.mem_cons_of_mem _ h1, List.mem_append_right _ h2⟩

theorem nodup_snd_of_fst_eq {α β : Type} {c : α} :
    ∀ l : List (α × β), l.Nodup → (∀ x ∈ l, x.1 = c) → (l.map Prod.snd).Nodup := by
  intro l
  induction l with
  | nil => intro _ _; simp
  | cons q rest ih =>
    intro hnd hall
    rw [List.nodup_cons] at hnd
    rw [List.map_cons, List.nodup_cons]
    refine ⟨?_, ih hnd.2 (fun x hx => hall x (List.mem_cons_of_mem _ hx))⟩
    intro hmem
    obtain ⟨x, hx, hxe⟩ := List.mem_map.mp hmem
    have h1 : x.1 = q.1 :=
      (hall x (List.mem_cons_of_mem _ hx)).trans (hall q (List.mem_cons_self _ _)).symm
    have hxq : x = q := Prod.ext h1 hxe
    exact hnd.1 (hxq ▸ hx)

theorem length_le_of_nodup_subset {α : Type} {d L : List α}
    (hnd : d.Nodup) (hsub : d ⊆ L) : d.length ≤ L.length :=
  (hnd.subperm hsub).length_le

end RequestShapeLemmas

section ClaimC6

/-- C6: if the same `target_entity` string is produced anywhere in the run,
the built graph still has exactly one node with that id (node ids are
pairwise distinct), the node list is exactly the first-insertion-wins
accumulation of the insertion-request trace, and the stored attributes of every id
(label, type, layer) are those of its first insertion request — first-seen
layer wins and is never updated on a later reappearance. -/
theorem node_dedup_first_seen_wins :
    ∀ (e : String) (propose : Nat → String → Option (List Impact))
      (validate : Nat → Nat → Option Bool),
      ((analyzeGraph e propose validate).nodes.map Prod.fst).Nodup
      ∧ (analyzeGraph e propose validate).nodes = firstWins [] (nodeRequests e propose validate)
      ∧ ∀ n, lookupFst n (analyzeGraph e propose validate).nodes
          = lookupFst n (nodeRequests e propose validate) := by
  intro e propose validate
  refine ⟨?_, analyzeGraph_nodes e propose validate, ?_⟩
  · rw [analyzeGraph_nodes]
    exact firstWins_keys_nodup _ [] (by simp)
  · intro n
    rw [analyzeGraph_nodes, lookupFst_firstWins, List.nil_append]

end ClaimC6

section ClaimC7

/-- C7: for every event text and backend behavior the built graph has exactly
one node with layer 0 — the root, whose id and label are the event text and
whose type is "Event" — and its attributes survive the whole run unchanged. -/
theorem unique_root_event_node :
    ∀ (e : String) (propose : Nat → String → Option (List Impact))
      (validate : Nat → Nat → Option Bool),
      (analyzeGraph e propose validate).nodes.filter (fun q => decide (q.2.layer = 0))
        = [(e, ⟨e, "Event", 0⟩)] := by
  intro e propose validate
  rw [analyzeGraph_nodes, nodeRequests]
  rw [show firstWins ([] : List (String × NodeAttrs)) ((e, ⟨e, "Event", 0⟩) ::
      nodeRequestsLoop e propose validate (directImpacts e propose validate) 0)
    = firstWins [(e, ⟨e, "Event", 0⟩)]
        (nodeRequestsLoop e propose validate (directImpacts e propose validate) 0) from by
    rw [firstWins]
    rfl]
  obtain ⟨t, ht, hm⟩ := firstWins_eq_append
    (nodeRequestsLoop e propose validate (directImpacts e propose validate) 0)
    [(e, ⟨e, "Event", 0⟩)]
  rw [ht, List.filter_append]
  have hfilter : t.filter (fun q => decide (q.2.layer = 0)) = [] := by
    rw [List.filter_eq_nil_iff]
    intro x hx
    rcases nodeRequestsLoop_layer e propose validate (directImpacts e propose validate) 0
      x (hm x hx) with h1 | h1 <;> simp [h1]
  rw [hfilter]
  simp

end ClaimC7

section ClaimC1

/-- C1 counterexample: two distinct validated impacts sharing the same
(source, target) pair do not produce two edges.  Here the Detective proposes
two distinct impacts on target "X", both are approved, yet the built graph
holds a single root→"X" edge carrying only the sentiment and
explanation of the second impact. -/
theorem edge_no_dedup_cex :
    directImpacts "E"
        (fun k _ => if k = 0 then some [⟨"X", Sentiment.positive, "e1"⟩,
          ⟨"X", Sentiment.negative, "e2"⟩] else some [])
        (fun _ _ => some true)
      = [⟨"X", Sentiment.positive, "e1"⟩, ⟨"X", Sentiment.negative, "e2"⟩]
    ∧ (analyzeGraph "E"
        (fun k _ => if k = 0 then some [⟨"X", Sentiment.positive, "e1"⟩,
          ⟨"X", Sentiment.negative, "e2"⟩] else some [])
        (fun _ _ => some true)).edges
      = [(("E", "X"), ⟨Sentiment.negative, "e2"⟩)] := by
  decide

/-- C1 as amended: the graph holds at most one edge per ordered
(source, target) pair — edge keys are pairwise distinct — and the stored
attributes of each pair are those of the LAST insertion request for that pair
(re-insertion overwrites: last write wins), as does the serialized edge list. -/
theorem edge_overwrite_last_wins :
    ∀ (e : String) (propose : Nat → String → Option (List Impact))
      (validate : Nat → Nat → Option Bool),
      ((analyzeGraph e propose validate).edges.map Prod.fst).Nodup
      ∧ ∀ k, lookupFst k (analyzeGraph e propose validate).edges
          = lookupFst k (edgeRequests e propose validate).reverse := by
  intro e propose validate
  constructor
  · rw [analyzeGraph_edges]
    exact applyUpserts_keys_nodup _ [] (by simp)
  · intro k
    rw [analyzeGraph_edges, lookupFst_applyUpserts]
    cases h : lookupFst k (edgeRequests e propose validate).reverse <;> simp [lookupFst]

end ClaimC1

section ClaimC4

/-- C4 counterexample: with a direct impact whose target equals the event
text itself, downstream edges also originate at the root node, so the built
graph holds 5 edges whose source is the root — more than 3. -/
theorem root_fanout_cex :
    ((analyzeGraph "E"
        (fun k _ => if k = 0 then some [⟨"E", Sentiment.positive, "a"⟩,
            ⟨"E", Sentiment.positive, "b"⟩]
          else if k = 1 then some [⟨"S1", Sentiment.positive, "s"⟩,
            ⟨"S2", Sentiment.positive, "s"⟩]
          else if k = 2 then some [⟨"S3", Sentiment.positive, "s"⟩,
            ⟨"S4", Sentiment.positive, "s"⟩]
          else some [])
        (fun _ _ => some true)).edges.filter (fun q => decide (q.1.1 = "E"))).length = 5
    ∧ ¬ (((analyzeGraph "E"
        (fun k _ => if k = 0 then some [⟨"E", Sentiment.positive, "a"⟩,
            ⟨"E", Sentiment.positive, "b"⟩]
          else if k = 1 then some [⟨"S1", Sentiment.positive, "s"⟩,
            ⟨"S2", Sentiment.positive, "s"⟩]
          else if k = 2 then some [⟨"S3", Sentiment.positive, "s"⟩,
            ⟨"S4", Sentiment.positive, "s"⟩]
          else some [])
        (fun _ _ => some true)).edges.filter (fun q => decide (q.1.1 = "E"))).length ≤ 3) := by
  decide

/-- C4 as amended: the built graph always has at most 3 layer-1 nodes, and at
most 3 edges whose source is the root PROVIDED no direct impact targets the
event text itself (otherwise the downstream edges of that branch also originate at
the root node). -/
theorem root_fanout_bound (e : String) (propose : Nat → String → Option (List Impact))
    (validate : Nat → Nat → Option Bool) :
    (((analyzeGraph e propose validate).nodes.filter
        (fun q => decide (q.2.layer = 1))).length ≤ 3)
    ∧ (e ∉ directTargets e propose validate →
        (((analyzeGraph e propose validate).edges.filter
          (fun q => decide (q.1.1 = e))).length ≤ 3)) := by
  constructor
  · -- layer-1 node count
    set N := (analyzeGraph e propose validate).nodes with hN
    have hkeys : (N.map Prod.fst).Nodup := by
      rw [hN, analyzeGraph_nodes]
      exact firstWins_keys_nodup _ [] (by simp)
    set F := N.filter (fun q => decide (q.2.layer = 1)) with hF
    have hFsub : (F.map Prod.fst).Sublist (N.map Prod.fst) :=
      (List.filter_sublist N).map Prod.fst
    have hFnd : (F.map Prod.fst).Nodup := hkeys.sublist hFsub
    have hFmem : ∀ n ∈ F.map Prod.fst, n ∈ directTargets e propose validate := by
      intro n hn
      obtain ⟨x, hx, rfl⟩ := List.mem_map.mp hn
      have hx2 := List.mem_filter.mp hx
      have hlayer : x.2.layer = 1 := by
        have := hx2.2
        simpa using this
      obtain ⟨t, ht, hm⟩ := firstWins_eq_append
        (nodeRequestsLoop e propose validate (directImpacts e propose validate) 0)
        [(e, ⟨e, "Event", 0⟩)]
      have hxN : x ∈ N := hx2.1
      rw [hN, analyzeGraph_nodes, nodeRequests] at hxN
      rw [show firstWins ([] : List (String × NodeAttrs)) ((e, ⟨e, "Event", 0⟩) ::
          nodeRequestsLoop e propose validate (directImpacts e propose validate) 0)
        = firstWins [(e, ⟨e, "Event", 0⟩)]
            (nodeRequestsLoop e propose validate (directImpacts e propose validate) 0) from by
        rw [firstWins]
        rfl] at hxN
      rw [ht] at hxN
      rcases List.mem_append.mp hxN with hx1 | hx1
      · simp at hx1
        rw [hx1] at hlayer
        simp at hlayer
      · exact nodeRequestsLoop_layer1_key e propose validate
          (directImpacts e propose validate) 0 x (hm x hx1) hlayer
    have h1 : (F.map Prod.fst).length ≤ (directTargets e propose validate).length :=
      length_le_of_nodup_subset hFnd hFmem
    have h2 : (directTargets e propose validate).length ≤ 3 := by
      rw [directTargets, List.length_map]
      exact getImpacts_length_le _ _ 3
    calc F.length = (F.map Prod.fst).length := (List.length_map F Prod.fst).symm
      _ ≤ (directTargets e propose validate).length := h1
      _ ≤ 3 := h2
  · -- root-sourced edge count
    intro he
    set E := (analyzeGraph e propose validate).edges with hE
    have hkeys : (E.map Prod.fst).Nodup := by
      rw [hE, analyzeGraph_edges]
      exact applyUpserts_keys_nodup _ [] (by simp)
    set F := E.filter (fun q => decide (q.1.1 = e)) with hF
    have hFsub : (F.map Prod.fst).Sublist (E.map Prod.fst) :=
      (List.filter_sublist E).map Prod.fst
    have hFnd : (F.map Prod.fst).Nodup := hkeys.sublist hFsub
    have hfst : ∀ k ∈ F.map Prod.fst, k.1 = e := by
      intro k hk
      obtain ⟨x, hx, rfl⟩ := List.mem_map.mp hk
      have := (List.mem_filter.mp hx).2
      simpa using this
    have hsnd : ∀ k ∈ F.map Prod.fst, k.2 ∈ directTargets e propose validate := by
      intro k hk
      obtain ⟨x, hx, rfl⟩ := List.mem_map.mp hk
      have hx1 : x ∈ E := (List.mem_filter.mp hx).1
      have hxfst : x.1.1 = e := by
        have := (List.mem_filter.mp hx).2
        simpa using this
      rw [hE, analyzeGraph_edges] at hx1
      rcases applyUpserts_keys_mem (edgeRequests e propose validate) [] x hx1 with h0 | h0
      · cases h0
      rw [edgeRequests] at h0
      rcases edgeRequestsLoop_key e propose validate (directImpacts e propose validate) 0
        x.1 h0 with ⟨_, h2⟩ | ⟨h1, _⟩
      · exact h2
      · rw [hxfst] at h1
        exact absurd h1 he
    have hsndnd : ((F.map Prod.fst).map Prod.snd).Nodup :=
      nodup_snd_of_fst_eq (F.map Prod.fst) hFnd hfst
    have hsndsub : ∀ n ∈ (F.map Prod.fst).map Prod.snd,
        n ∈ directTargets e propose validate := by
      intro n hn
      obtain ⟨k, hk, rfl⟩ := List.mem_map.mp hn
      exact hsnd k hk
    have h1 : ((F.map Prod.fst).map Prod.snd).length
        ≤ (directTargets e propose validate).length :=
      length_le_of_nodup_subset hsndnd hsndsub
    have h2 : (directTargets e propose validate).length ≤ 3 := by
      rw [directTargets, List.length_map]
      exact getImpacts_length_le _ _ 3
    calc F.length = ((F.map Prod.fst).map Prod.snd).length := by
          rw [List.length_map, List.length_map]
      _ ≤ (directTargets e propose validate).length := h1
      _ ≤ 3 := h2

/-- Witness for C4 at a concrete run: one direct impact "A" (distinct from
the event text "E") with no downstream impacts. -/
theorem root_fanout_bound_w :
    ("E" ∉ directTargets "E" (fun k _ => if k = 0 then
        some [⟨"A", Sentiment.positive, "a"⟩] else some []) (fun _ _ => some true))
    ∧ ((((analyzeGraph "E" (fun k _ => if k = 0 then
          some [⟨"A", Sentiment.positive, "a"⟩] else some []) (fun _ _ => some true)).nodes.filter
          (fun q => decide (q.2.layer = 1))).length ≤ 3)
      ∧ (((analyzeGraph "E" (fun k _ => if k = 0 then
          some [⟨"A", Sentiment.positive, "a"⟩] else some []) (fun _ _ => some true)).edges.filter
          (fun q => decide (q.1.1 = "E"))).length ≤ 3)) :=
  ⟨by decide,
    (root_fanout_bound "E" (fun k _ => if k = 0 then
      some [⟨"A", Sentiment.positive, "a"⟩] else some []) (fun _ _ => some true)).1,
    (root_fanout_bound "E" (fun k _ => if k = 0 then
      some [⟨"A", Sentiment.positive, "a"⟩] else some []) (fun _ _ => some true)).2 (by decide)⟩

end ClaimC4

section EarlyStopSpec

theorem reviewLoop_spec (v : Nat → Option Bool) (count : Nat) (cs : List Impact) :
    ∀ (j : Nat) (acc : List Impact), acc.length < count → acc.length = acceptedUpTo v j →
      (reviewLoop v count cs j acc).2 ≤ cs.length
      ∧ (∀ m, j ≤ m → m < j + (reviewLoop v count cs j acc).2 → acceptedUpTo v m < count)
      ∧ ((reviewLoop v count cs j acc).2 < cs.length →
          acceptedUpTo v (j + (reviewLoop v count cs j acc).2) = count) := by
  induction cs with
  | nil =>
    intro j acc hlt hacc
    refine ⟨Nat.le_refl 0, ?_, ?_⟩
    · intro m hm1 hm2
      simp [reviewLoop] at hm2
      omega
    · intro h
      simp [reviewLoop] at h
  | cons c rest ih =>
    intro j acc hlt hacc
    cases hv : v j with
    | none =>
      have hred : reviewLoop v count (c :: rest) j acc
          = ((reviewLoop v count rest (j + 1) acc).1,
             (reviewLoop v count rest (j + 1) acc).2 + 1) := by
        rw [reviewLoop, hv]
      rw [hred]
      have hacc1 : acc.length = acceptedUpTo v (j + 1) := by
        rw [acceptedUpTo_succ, hv]
        simp [hacc]
      obtain ⟨ha, hb, hc⟩ := ih (j + 1) acc hlt hacc1
      refine ⟨by simpa using Nat.succ_le_succ ha, ?_, ?_⟩
      · intro m hm1 hm2
        rcases Nat.eq_or_lt_of_le hm1 with rfl | hm1
        · rw [← hacc]
          exact hlt
        · exact hb m hm1 (by simp at hm2 ⊢; omega)
      · intro hlen
        have hlen1 : (reviewLoop v count rest (j + 1) acc).2 < rest.length := by
          simp at hlen
          omega
        have hc1 := hc hlen1
        rw [show j + ((reviewLoop v count rest (j + 1) acc).2 + 1)
          = (j + 1) + (reviewLoop v count rest (j + 1) acc).2 by omega]
        exact hc1
    | some b =>
      cases b with
      | true =>
        by_cases hstop : count ≤ acc.length + 1
        · have hred : reviewLoop v count (c :: rest) j acc = (acc ++ [c], 1) := by
            rw [reviewLoop, hv]
            simp [hstop]
          rw [hred]
          refine ⟨by simp, ?_, ?_⟩
          · intro m hm1 hm2
            have hm : m = j := by omega
            subst hm
            rw [← hacc]
            exact hlt
          · intro _
            have hsucc : acceptedUpTo v (j + 1) = acceptedUpTo v j + 1 := by
              rw [acceptedUpTo_succ, hv]
              simp
            rw [hsucc, ← hacc]
            omega
        · have hred : reviewLoop v count (c :: rest) j acc
              = ((reviewLoop v count rest (j + 1) (acc ++ [c])).1,
                 (reviewLoop v count rest (j + 1) (acc ++ [c])).2 + 1) := by
            rw [reviewLoop, hv]
            simp [hstop]
          rw [hred]
          have hacc1 : (acc ++ [c]).length = acceptedUpTo v (j + 1) := by
            rw [acceptedUpTo_succ, hv]
            simp [← hacc]
          have hlt1 : (acc ++ [c]).length < count := by
            simp
            omega
          obtain ⟨ha, hb, hc⟩ := ih (j + 1) (acc ++ [c]) hlt1 hacc1
          refine ⟨by simpa using Nat.succ_le_succ ha, ?_, ?_⟩
          · intro m hm1 hm2
            rcases Nat.eq_or_lt_of_le hm1 with rfl | hm1
            · rw [← hacc]
              exact hlt
            · exact hb m hm1 (by simp at hm2 ⊢; omega)
          · intro hlen
            have hlen1 : (reviewLoop v count rest (j + 1) (acc ++ [c])).2 < rest.length := by
              simp at hlen
              omega
            have hc1 := hc hlen1
            rw [show j + ((reviewLoop v count rest (j + 1) (acc ++ [c])).2 + 1)
              = (j + 1) + (reviewLoop v count rest (j + 1) (acc ++ [c])).2 by omega]
            exact hc1
      | false =>
        have hstop : ¬ count ≤ acc.length := by omega
        have hred : reviewLoop v count (c :: rest) j acc
            = ((reviewLoop v count rest (j + 1) acc).1,
               (reviewLoop v count rest (j + 1) acc).2 + 1) := by
          rw [reviewLoop, hv]
          simp [hstop]
        rw [hred]
        have hacc1 : acc.length = acceptedUpTo v (j + 1) := by
          rw [acceptedUpTo_succ, hv]
          simp [hacc]
        obtain ⟨ha, hb, hc⟩ := ih (j + 1) acc hlt hacc1
        refine ⟨by simpa using Nat.succ_le_succ ha, ?_, ?_⟩
        · intro m hm1 hm2
          rcases Nat.eq_or_lt_of_le hm1 with rfl | hm1
          · rw [← hacc]
            exact hlt
          · exact hb m hm1 (by simp at hm2 ⊢; omega)
        · intro hlen
          have hlen1 : (reviewLoop v count rest (j + 1) acc).2 < rest.length := by
            simp at hlen
            omega
          have hc1 := hc hlen1
          rw [show j + ((reviewLoop v count rest (j + 1) acc).2 + 1)
            = (j + 1) + (reviewLoop v count rest (j + 1) acc).2 by omega]
          exact hc1

end EarlyStopSpec

section ClaimC5

/-- C5 counterexample: with target_count = 0 the accepted list already has
size ≥ target_count before any candidate is examined, yet `_get_impacts`
still invokes the Reviewer once (the stop check only runs after a
validation), so the loop does not stop "as soon as" the accepted list has
reached target_count. -/
theorem discovery_early_stop_cex :
    getImpactsCalls (some [⟨"X", Sentiment.positive, "e"⟩]) (fun _ => some true) 0 = 1
    ∧ getImpacts (some [⟨"X", Sentiment.positive, "e"⟩]) (fun _ => some true) 0 = []
    ∧ ¬ (∀ m < getImpactsCalls (some [⟨"X", Sentiment.positive, "e"⟩])
          (fun _ => some true) 0,
        acceptedUpTo (fun _ => some true) m < 0) := by
  refine ⟨rfl, rfl, ?_⟩
  intro hall
  exact Nat.not_lt_zero _ (hall 0 (by decide))

/-- C5 as amended: for every target_count the returned list has at most
target_count impacts (truncation), and for target_count ≥ 1 the loop stops
exactly as claimed: the Reviewer is invoked on a candidate only while fewer
than target_count impacts are accepted, at most once per candidate, and if
the loop leaves the pool unexhausted it is because the accepted list has just
reached target_count.  (For target_count = 0 one Reviewer call still happens
on a nonempty pool, because the stop check only runs after a validation.) -/
theorem discovery_early_stop (cs : List Impact) (v : Nat → Option Bool) (count : Nat)
    (h : 1 ≤ count) :
    (getImpacts (some cs) v count).length ≤ count
    ∧ getImpactsCalls (some cs) v count ≤ cs.length
    ∧ (∀ m < getImpactsCalls (some cs) v count, acceptedUpTo v m < count)
    ∧ (getImpactsCalls (some cs) v count < cs.length →
        acceptedUpTo v (getImpactsCalls (some cs) v count) = count) := by
  have hacc : ([] : List Impact).length = acceptedUpTo v 0 := by
    simp [acceptedUpTo]
  obtain ⟨ha, hb, hc⟩ := reviewLoop_spec v count cs 0 [] (by simpa using h) hacc
  refine ⟨getImpacts_length_le _ _ _, ha, ?_, ?_⟩
  · intro m hm
    exact hb m (Nat.zero_le m) (by simpa using hm)
  · intro hlen
    have hc1 := hc hlen
    simpa using hc1

/-- Witness for C5 at a concrete run: one candidate, accepted, with
target_count 1. -/
theorem discovery_early_stop_w :
    1 ≤ 1
    ∧ ((getImpacts (some [⟨"X", Sentiment.positive, "e"⟩]) (fun _ => some true) 1).length ≤ 1
      ∧ getImpactsCalls (some [⟨"X", Sentiment.positive, "e"⟩]) (fun _ => some true) 1
          ≤ ([(⟨"X", Sentiment.positive, "e"⟩ : Impact)] : List Impact).length
      ∧ (∀ m < getImpactsCalls (some [⟨"X", Sentiment.positive, "e"⟩]) (fun _ => some true) 1,
          acceptedUpTo (fun _ => some true) m < 1)
      ∧ (getImpactsCalls (some [⟨"X", Sentiment.positive, "e"⟩]) (fun _ => some true) 1
            < ([(⟨"X", Sentiment.positive, "e"⟩ : Impact)] : List Impact).length →
          acceptedUpTo (fun _ => some true)
            (getImpactsCalls (some [⟨"X", Sentiment.positive, "e"⟩])
              (fun _ => some true) 1) = 1)) :=
  ⟨Nat.le_refl 1, discovery_early_stop [⟨"X", Sentiment.positive, "e"⟩]
    (fun _ => some true) 1 (Nat.le_refl 1)⟩

end ClaimC5

section LayerLookupLemmas

theorem subNodeRequests_keys (subs : List Impact) :
    (subNodeRequests subs).map Prod.fst = subs.map Impact.target_entity := by
  rw [subNodeRequests, List.map_map]
  rfl

theorem lookupFst_subNodeRequests_mem (subs : List Impact) (s : String)
    (hs : s ∈ subs.map Impact.target_entity) :
    lookupFst s (subNodeRequests subs) = some ⟨s, "Entity", 2⟩ := by
  induction subs with
  | nil => cases hs
  | cons c rest ih =>
    rw [subNodeRequests, List.map_cons]
    by_cases h : c.target_entity = s
    · rw [lookupFst, if_pos h, h]
    · rw [lookupFst, if_neg h]
      refine ih ?_
      rw [List.map_cons] at hs
      rcases List.mem_cons.mp hs with h1 | h1
      · exact absurd h1.symm h
      · exact h1

theorem lookupFst_nodeRequestsLoop_direct (e : String)
    (propose : Nat → String → Option (List Impact)) (validate : Nat → Nat → Option Bool)
    (cs : List Impact) :
    ∀ (i : Nat) (t : String), t ∈ cs.map Impact.target_entity →
      t ∉ allSubTargetsLoop e propose validate cs i →
      lookupFst t (nodeRequestsLoop e propose validate cs i) = some ⟨t, "Entity", 1⟩ := by
  induction cs with
  | nil => intro i t ht _; cases ht
  | cons impact rest ih =>
    intro i t ht hsub
    rw [nodeRequestsLoop]
    rw [allSubTargetsLoop] at hsub
    by_cases h : impact.target_entity = t
    · rw [lookupFst, if_pos h, h]
    · rw [lookupFst, if_neg h, lookupFst_append]
      have h1 : lookupFst t (subNodeRequests (getImpacts
          (propose (i + 1) (downstreamEvent impact.target_entity e))
          (validate (i + 1)) 2)) = none := by
        rw [lookupFst_eq_none, subNodeRequests_keys]
        intro hmem
        exact hsub (List.mem_append_left _ hmem)
      rw [h1]
      show lookupFst t (nodeRequestsLoop e propose validate rest (i + 1))
        = some ⟨t, "Entity", 1⟩
      refine ih (i + 1) t ?_ ?_
      · rw [List.map_cons] at ht
        rcases List.mem_cons.mp ht with h2 | h2
        · exact absurd h2.symm h
        · exact h2
      · intro hmem
        exact hsub (List.mem_append_right _ hmem)

theorem lookupFst_nodeRequestsLoop_sub (e : String)
    (propose : Nat → String → Option (List Impact)) (validate : Nat → Nat → Option Bool)
    (cs : List Impact) :
    ∀ (i : Nat) (s : String), s ∉ cs.map Impact.target_entity →
      s ∈ allSubTargetsLoop e propose validate cs i →
      lookupFst s (nodeRequestsLoop e propose validate cs i) = some ⟨s, "Entity", 2⟩ := by
  induction cs with
  | nil => intro i s _ hs; cases hs
  | cons impact rest ih =>
    intro i s hdir hs
    rw [nodeRequestsLoop]
    rw [allSubTargetsLoop] at hs
    have h : ¬ impact.target_entity = s := by
      intro hh
      refine hdir ?_
      rw [List.map_cons, hh]
      exact List.mem_cons_self _ _
    rw [lookupFst, if_neg h, lookupFst_append]
    by_cases hmem : s ∈ (getImpacts (propose (i + 1) (downstreamEvent impact.target_entity e))
        (validate (i + 1)) 2).map Impact.target_entity
    · rw [lookupFst_subNodeRequests_mem _ s hmem]
    · have h1 : lookupFst s (subNodeRequests (getImpacts
          (propose (i + 1) (downstreamEvent impact.target_entity e))
          (validate (i + 1)) 2)) = none := by
        rw [lookupFst_eq_none, subNodeRequests_keys]
        exact hmem
      rw [h1]
      show lookupFst s (nodeRequestsLoop e propose validate rest (i + 1))
        = some ⟨s, "Entity", 2⟩
      refine ih (i + 1) s ?_ ?_
      · intro hm
        refine hdir ?_
        rw [List.map_cons]
        exact List.mem_cons_of_mem _ hm
      · rcases List.mem_append.mp hs with h2 | h2
        · exact absurd h2 hmem
        · exact h2

end LayerLookupLemmas

section ClaimC2

/-- C2 counterexample: entity "A" is a direct (layer-1) impact of the root
and reappears as a downstream impact of the other direct impact "B"; the
resulting edge "B"→"A" connects two layer-1 nodes, so layer(target) =
layer(source) + 1 fails for that run. -/
theorem edge_layer_step_cex :
    ¬ (∀ q ∈ (analyzeGraph "E"
        (fun k _ => if k = 0 then some [⟨"A", Sentiment.positive, "a"⟩,
            ⟨"B", Sentiment.positive, "b"⟩]
          else if k = 2 then some [⟨"A", Sentiment.negative, "c"⟩]
          else some [])
        (fun _ _ => some true)).edges,
      layerStepOk (analyzeGraph "E"
        (fun k _ => if k = 0 then some [⟨"A", Sentiment.positive, "a"⟩,
            ⟨"B", Sentiment.positive, "b"⟩]
          else if k = 2 then some [⟨"A", Sentiment.negative, "c"⟩]
          else some [])
        (fun _ _ => some true)) q) := by
  decide

/-- C2 as amended: every edge satisfies layer(target) = layer(source) + 1
PROVIDED no entity name recurs at a different depth — the event text is
neither a direct nor a downstream target, and no name is both a direct and a
downstream target.  (Otherwise a recurring name keeps its first-seen layer
and an edge can repeat or skip layers.) -/
theorem edge_layer_step (e : String) (propose : Nat → String → Option (List Impact))
    (validate : Nat → Nat → Option Bool)
    (h1 : e ∉ directTargets e propose validate)
    (h2 : e ∉ allSubTargets e propose validate)
    (h3 : ∀ t ∈ directTargets e propose validate, t ∉ allSubTargets e propose validate) :
    ∀ q ∈ (analyzeGraph e propose validate).edges,
      layerStepOk (analyzeGraph e propose validate) q := by
  have hlookup : ∀ n, lookupFst n (analyzeGraph e propose validate).nodes
      = lookupFst n (nodeRequests e propose validate) := by
    intro n
    rw [analyzeGraph_nodes, lookupFst_firstWins, List.nil_append]
  have hroot : layerOf (analyzeGraph e propose validate) e = some 0 := by
    rw [layerOf, hlookup, nodeRequests, lookupFst, if_pos rfl]
    rfl
  have hdirect : ∀ t ∈ directTargets e propose validate,
      layerOf (analyzeGraph e propose validate) t = some 1 := by
    intro t ht
    have hne : ¬ e = t := fun hh => h1 (hh ▸ ht)
    rw [layerOf, hlookup, nodeRequests, lookupFst, if_neg hne]
    rw [lookupFst_nodeRequestsLoop_direct e propose validate
      (directImpacts e propose validate) 0 t ht (h3 t ht)]
    rfl
  have hsub : ∀ s ∈ allSubTargets e propose validate,
      s ∉ directTargets e propose validate →
      layerOf (analyzeGraph e propose validate) s = some 2 := by
    intro s hs hnd
    have hne : ¬ e = s := fun hh => h2 (hh ▸ hs)
    rw [layerOf, hlookup, nodeRequests, lookupFst, if_neg hne]
    rw [lookupFst_nodeRequestsLoop_sub e propose validate
      (directImpacts e propose validate) 0 s hnd hs]
    rfl
  intro q hq
  have hq1 : q.1 ∈ (edgeRequests e propose validate).map Prod.fst := by
    rw [analyzeGraph_edges] at hq
    rcases applyUpserts_keys_mem _ [] q hq with h0 | h0
    · cases h0
    · exact h0
  rw [edgeRequests] at hq1
  rcases edgeRequestsLoop_key e propose validate (directImpacts e propose validate) 0
      q.1 hq1 with ⟨hu, hw⟩ | ⟨hu, hw⟩
  · show layerOf _ q.1.2 = (layerOf _ q.1.1).map (· + 1)
    rw [hu, hroot, hdirect q.1.2 hw]
    rfl
  · have hnd : q.1.2 ∉ directTargets e propose validate := fun hdd => h3 _ hdd hw
    show layerOf _ q.1.2 = (layerOf _ q.1.1).map (· + 1)
    rw [hdirect q.1.1 hu, hsub q.1.2 hw hnd]
    rfl

/-- Witness for C2 at a concrete run with distinct names per depth:
direct impact "A" of event "E", downstream impact "B" of "A". -/
theorem edge_layer_step_w :
    ("E" ∉ directTargets "E" (fun k _ => if k = 0 then some [⟨"A", Sentiment.positive, "x"⟩]
        else if k = 1 then some [⟨"B", Sentiment.positive, "y"⟩] else some [])
      (fun _ _ => some true))
    ∧ ("E" ∉ allSubTargets "E" (fun k _ => if k = 0 then some [⟨"A", Sentiment.positive, "x"⟩]
        else if k = 1 then some [⟨"B", Sentiment.positive, "y"⟩] else some [])
      (fun _ _ => some true))
    ∧ (∀ t ∈ directTargets "E" (fun k _ => if k = 0 then some [⟨"A", Sentiment.positive, "x"⟩]
        else if k = 1 then some [⟨"B", Sentiment.positive, "y"⟩] else some [])
      (fun _ _ => some true),
        t ∉ allSubTargets "E" (fun k _ => if k = 0 then some [⟨"A", Sentiment.positive, "x"⟩]
          else if k = 1 then some [⟨"B", Sentiment.positive, "y"⟩] else some [])
        (fun _ _ => some true))
    ∧ (∀ q ∈ (analyzeGraph "E" (fun k _ => if k = 0 then some [⟨"A", Sentiment.positive, "x"⟩]
        else if k = 1 then some [⟨"B", Sentiment.positive, "y"⟩] else some [])
      (fun _ _ => some true)).edges,
        layerStepOk (analyzeGraph "E"
          (fun k _ => if k = 0 then some [⟨"A", Sentiment.positive, "x"⟩]
            else if k = 1 then some [⟨"B", Sentiment.positive, "y"⟩] else some [])
          (fun _ _ => some true)) q) :=
  ⟨by decide, by decide, by decide,
    edge_layer_step "E" (fun k _ => if k = 0 then some [⟨"A", Sentiment.positive, "x"⟩]
        else if k = 1 then some [⟨"B", Sentiment.positive, "y"⟩] else some [])
      (fun _ _ => some true) (by decide) (by decide) (by decide)⟩

end ClaimC2





end Domino
